import Mathlib

/-!
Shallow embedding of `src/heat_transfer_simulation.py` (1D heat conduction by
the explicit FTCS finite-difference scheme).  Real-valued samples are modelled
by `ℚ`; a Python `IndexError` / `ZeroDivisionError` is modelled by `none` of an
`Option` result.  The module-level global `nx` of the script is made an
explicit first parameter of every function that reads it; the script itself
always instantiates it with the constant `HeatSim.nx = 20`.
-/

namespace HeatSim

/-- Number of spatial points along the rod: the module constant `nx = 20`
(src/heat_transfer_simulation.py, line 16). -/
def nx : ℕ := 20

/-- Value written at interior index `i` by one FTCS update with ratio
`r = alpha * dt / dx^2`, reading neighbours from the snapshot `T`
(line 47 of the source); out-of-range reads default to `0` here, but the
lemmas below only ever use this value when all three reads are in range. -/
def ftcs_val (T : List ℚ) (r : ℚ) (i : ℕ) : ℚ :=
  (T[i]?).getD 0 + r * ((T[i+1]?).getD 0 - 2 * (T[i]?).getD 0 + (T[i-1]?).getD 0)

/-- Interior loop of `update_temperature` (lines 45-47): processes the index
list `l` in order, reading from the snapshot `T` and writing into the
accumulator `acc` (the numpy copy `T_new`); `none` models the `IndexError`
numpy raises on an out-of-range scalar read. -/
def update_loop (T : List ℚ) (r : ℚ) : List ℕ → List ℚ → Option (List ℚ)
  | [], acc => some acc
  | i :: rest, acc =>
    match T[i+1]?, T[i]?, T[i-1]? with
    | some tp, some tc, some tm =>
        update_loop T r rest (acc.set i (tc + r * (tp - 2 * tc + tm)))
    | _, _, _ => none

/-- `update_temperature` (lines 39-48), with the module global `nx` as an
explicit first parameter `nxv`.  The Python loop `for i in range(1, nx - 1)`
iterates over `[1, ..., nx - 2]`, which is `List.range' 1 (nxv - 2)`. -/
def update_temperature (nxv : ℕ) (T : List ℚ) (alpha dx dt : ℚ) : Option (List ℚ) :=
  update_loop T (alpha * dt / dx ^ 2) (List.range' 1 (nxv - 2)) T

/-- The always-successful body of Field-State initialization (lines 33-35):
`np.ones(nx) * T_initial`, then `T[0] = T_left`, then `T[-1] = T_right`
(Python index `-1` is index `nxv - 1`). -/
def init_field (nxv : ℕ) (Ti Tl Tr : ℚ) : List ℚ :=
  ((List.replicate nxv Ti).set 0 Tl).set (nxv - 1) Tr

/-- Field-State initialization including its only failure: when `nxv = 0`,
writing the boundary value at index `0` of an empty array raises. -/
def init_T (nxv : ℕ) (Ti Tl Tr : ℚ) : Option (List ℚ) :=
  if nxv = 0 then none else some (init_field nxv Ti Tl Tr)

/-- Spatial step `dx = length / (nx - 1)` (line 17); `none` models the
`ZeroDivisionError` raised when `nxv = 1` (the divisor `nx - 1` is the Python
integer `nx - 1`, which is `-1`, not an error, when `nxv = 0`). -/
def compute_dx (len : ℚ) (nxv : ℕ) : Option ℚ :=
  if (nxv : ℤ) - 1 = 0 then none else some (len / ((nxv : ℚ) - 1))

/-- Driving loop (lines 56-59): `nt` iterations, each replacing the current
state by the stepper output and appending a copy of it to the history;
a stepper failure aborts the whole run. -/
def history_loop (nxv : ℕ) (alpha dx dt : ℚ) : ℕ → List ℚ → Option (List (List ℚ))
  | 0, _ => some []
  | n + 1, T =>
    (update_temperature nxv T alpha dx dt).bind fun T2 =>
      (history_loop nxv alpha dx dt n T2).map fun h => T2 :: h

/-- The recorded history `T_history` of a run of `nt` steps from initial
state `T0` (lines 53-59). -/
def T_history (nxv : ℕ) (T0 : List ℚ) (alpha dx dt : ℚ) (nt : ℕ) :
    Option (List (List ℚ)) :=
  history_loop nxv alpha dx dt nt T0

/-- `k`-fold application of the stepper to `T0` (`none` once any
application fails). -/
def stepper_iter (nxv : ℕ) (alpha dx dt : ℚ) (T0 : List ℚ) : ℕ → Option (List ℚ)
  | 0 => some T0
  | k + 1 =>
    (stepper_iter nxv alpha dx dt T0 k).bind fun T => update_temperature nxv T alpha dx dt

/-- The affine Field State `i ↦ a + b * i` on `n` samples (the steady-state
shape: the linear interpolation between the boundary temperatures). -/
def affine_state (a b : ℚ) (n : ℕ) : List ℚ :=
  (List.range n).map fun i : ℕ => a + b * (i : ℚ)

/-- When every index in `l` has its right neighbour in range of `T`, the
interior loop succeeds, preserves the accumulator length, leaves every index
outside `l` untouched, and writes `ftcs_val` at every index of `l`. -/
theorem update_loop_ok (T : List ℚ) (r : ℚ) (l : List ℕ) :
    ∀ acc : List ℚ, (∀ i ∈ l, i + 1 < T.length) →
    ∃ res, update_loop T r l acc = some res ∧ res.length = acc.length ∧
      (∀ j, j ∉ l → res[j]? = acc[j]?) ∧
      (∀ j, j ∈ l → j < acc.length → res[j]? = some (ftcs_val T r j)) := by
  induction l with
  | nil =>
    intro acc _
    exact ⟨acc, rfl, rfl, fun _ _ => rfl, by simp⟩
  | cons i rest ih =>
    intro acc h
    have hi1 : i + 1 < T.length := h i (List.mem_cons_self i rest)
    have hi : i < T.length := Nat.lt_of_le_of_lt (Nat.le_succ i) hi1
    have him : i - 1 < T.length := Nat.lt_of_le_of_lt (Nat.sub_le i 1) hi
    obtain ⟨res, hres, hlen, hout, hin⟩ :=
      ih (acc.set i (T[i] + r * (T[i+1] - 2 * T[i] + T[i-1])))
        (fun j hj => h j (List.mem_cons_of_mem i hj))
    have hval : ftcs_val T r i = T[i] + r * (T[i+1] - 2 * T[i] + T[i-1]) := by
      simp [ftcs_val, List.getElem?_eq_getElem, hi, hi1, him]
    refine ⟨res, ?_, ?_, ?_, ?_⟩
    · simp only [update_loop, List.getElem?_eq_getElem hi1, List.getElem?_eq_getElem hi,
        List.getElem?_eq_getElem him]
      exact hres
    · rw [hlen, List.length_set]
    · intro j hj
      have hjr : j ∉ rest := fun hmem => hj (List.mem_cons_of_mem i hmem)
      have hji : i ≠ j := fun e => hj (e ▸ List.mem_cons_self i rest)
      rw [hout j hjr, List.getElem?_set_ne hji]
    · intro j hj hjlen
      by_cases hjr : j ∈ rest
      · exact hin j hjr (by rw [List.length_set]; exact hjlen)
      · have hji : j = i := by
          rcases List.mem_cons.1 hj with h1 | h1
          · exact h1
          · exact absurd h1 hjr
        subst hji
        rw [hout j hjr, List.getElem?_set_self hjlen, hval]

/-- When some index in `l` has its right neighbour out of range of `T`, the
interior loop fails (the `IndexError` of the source). -/
theorem update_loop_fail (T : List ℚ) (r : ℚ) (l : List ℕ) :
    ∀ acc : List ℚ, (∃ i ∈ l, T.length ≤ i + 1) → update_loop T r l acc = none := by
  induction l with
  | nil => intro acc h; simp at h
  | cons i rest ih =>
    intro acc h
    obtain ⟨j, hj, hjlen⟩ := h
    by_cases hbad : T.length ≤ i + 1
    · have hnone : T[i+1]? = none := List.getElem?_eq_none hbad
      simp only [update_loop, hnone]
    · have hi1 : i + 1 < T.length := Nat.lt_of_not_le hbad
      have hi : i < T.length := Nat.lt_of_le_of_lt (Nat.le_succ i) hi1
      have him : i - 1 < T.length := Nat.lt_of_le_of_lt (Nat.sub_le i 1) hi
      have hjr : j ∈ rest := by
        rcases List.mem_cons.1 hj with h1 | h1
        · exact absurd (h1 ▸ hjlen) hbad
        · exact h1
      simp only [update_loop, List.getElem?_eq_getElem hi1, List.getElem?_eq_getElem hi,
        List.getElem?_eq_getElem him]
      exact ih _ ⟨j, hjr, hjlen⟩

/-- Membership in the interior index list of `update_temperature`. -/
theorem mem_interior_iff (nxv j : ℕ) :
    j ∈ List.range' 1 (nxv - 2) ↔ 1 ≤ j ∧ j + 1 < nxv := by
  rw [List.mem_range'_1]
  omega

/-- `update_temperature` on a state whose length equals the loop bound `nxv`
always succeeds, preserves the length, leaves every index outside
`[1, nxv - 2]` (in particular both boundaries) untouched, and performs the
FTCS update at every interior index. -/
theorem update_temperature_ok (nxv : ℕ) (T : List ℚ) (alpha dx dt : ℚ)
    (hlen : T.length = nxv) :
    ∃ res, update_temperature nxv T alpha dx dt = some res ∧ res.length = nxv ∧
      (∀ j, ¬ (1 ≤ j ∧ j + 1 < nxv) → res[j]? = T[j]?) ∧
      (∀ j, 1 ≤ j → j + 1 < nxv →
        res[j]? = some (ftcs_val T (alpha * dt / dx ^ 2) j)) := by
  obtain ⟨res, hres, hrlen, hout, hin⟩ :=
    update_loop_ok T (alpha * dt / dx ^ 2) (List.range' 1 (nxv - 2)) T
      (fun i hi => by
        have := (mem_interior_iff nxv i).1 hi
        omega)
  refine ⟨res, hres, by rw [hrlen, hlen], ?_, ?_⟩
  · intro j hj
    exact hout j (fun hmem => hj ((mem_interior_iff nxv j).1 hmem))
  · intro j h1 h2
    exact hin j ((mem_interior_iff nxv j).2 ⟨h1, h2⟩) (by omega)

/-- Generic invariant propagation through the driving loop: when the loop
bound matches the state length and `Q` is preserved by one stepper
application, a run from a `Q`-state always completes and every recorded state
has length `nxv` and satisfies `Q`. -/
theorem history_inv (nxv : ℕ) (alpha dx dt : ℚ) (Q : List ℚ → Prop)
    (hpres : ∀ T res, T.length = nxv → Q T →
      update_temperature nxv T alpha dx dt = some res → Q res) :
    ∀ (nt : ℕ) (T0 : List ℚ), T0.length = nxv → Q T0 →
    ∃ h, history_loop nxv alpha dx dt nt T0 = some h ∧ h.length = nt ∧
      ∀ s ∈ h, s.length = nxv ∧ Q s := by
  intro nt
  induction nt with
  | zero =>
    intro T0 _ _
    exact ⟨[], rfl, rfl, by simp⟩
  | succ n ih =>
    intro T0 hlen hQ
    obtain ⟨res, hres, hrlen, -, -⟩ := update_temperature_ok nxv T0 alpha dx dt hlen
    have hQres : Q res := hpres T0 res hlen hQ hres
    obtain ⟨h, hh, hhlen, hmem⟩ := ih res hrlen hQres
    refine ⟨res :: h, ?_, by simp [hhlen], ?_⟩
    · simp only [history_loop, hres, Option.some_bind, hh, Option.map_some']
    · intro s hs
      rcases List.mem_cons.1 hs with rfl | hs
      · exact ⟨hrlen, hQres⟩
      · exact hmem s hs

/-- A run whose loop bound matches the state length always completes, with
`nt` recorded states, each of length `nxv`. -/
theorem history_ok (nxv : ℕ) (alpha dx dt : ℚ) (nt : ℕ) (T0 : List ℚ)
    (hlen : T0.length = nxv) :
    ∃ h, history_loop nxv alpha dx dt nt T0 = some h ∧ h.length = nt ∧
      ∀ s ∈ h, s.length = nxv := by
  obtain ⟨h, hh, hlen', hmem⟩ :=
    history_inv nxv alpha dx dt (fun _ => True) (fun _ _ _ _ _ => trivial) nt T0 hlen trivial
  exact ⟨h, hh, hlen', fun s hs => (hmem s hs).1⟩

/-- Unfolding one application off the front of an iterated stepper. -/
theorem stepper_iter_shift (nxv : ℕ) (alpha dx dt : ℚ) (T0 : List ℚ) :
    ∀ k, stepper_iter nxv alpha dx dt T0 (k + 1) =
      (update_temperature nxv T0 alpha dx dt).bind
        (fun T2 => stepper_iter nxv alpha dx dt T2 k) := by
  intro k
  induction k with
  | zero =>
    cases hu : update_temperature nxv T0 alpha dx dt <;> simp [stepper_iter, hu]
  | succ k ih =>
    show (stepper_iter nxv alpha dx dt T0 (k + 1)).bind _ = _
    rw [ih, Option.bind_assoc]
    rfl

/-- Element `k` of a completed run's history is the `(k+1)`-fold iterate of
the stepper on the initial state. -/
theorem history_get (nxv : ℕ) (alpha dx dt : ℚ) :
    ∀ (nt : ℕ) (T0 : List ℚ) (h : List (List ℚ)),
      history_loop nxv alpha dx dt nt T0 = some h →
      ∀ k, k < nt → h[k]? = stepper_iter nxv alpha dx dt T0 (k + 1) := by
  intro nt
  induction nt with
  | zero => intro T0 h _ k hk; omega
  | succ n ih =>
    intro T0 h hrun k hk
    rw [history_loop] at hrun
    cases hu : update_temperature nxv T0 alpha dx dt with
    | none => rw [hu, Option.none_bind] at hrun; exact absurd hrun (by simp)
    | some T2 =>
      rw [hu, Option.some_bind] at hrun
      cases hh : history_loop nxv alpha dx dt n T2 with
      | none => rw [hh] at hrun; exact absurd hrun (by simp)
      | some h2 =>
        rw [hh, Option.map_some'] at hrun
        have hcons : h = T2 :: h2 := (Option.some.inj hrun).symm
        subst hcons
        cases k with
        | zero =>
          rw [List.getElem?_cons_zero, stepper_iter_shift, hu]
          simp [stepper_iter]
        | succ k =>
          have hik := ih T2 h2 hh k (by omega)
          rw [List.getElem?_cons_succ,
            stepper_iter_shift nxv alpha dx dt T0 (k + 1), hu, Option.some_bind, hik]

/-- The initialized Field State has length `nxv`. -/
theorem init_field_length (nxv : ℕ) (Ti Tl Tr : ℚ) :
    (init_field nxv Ti Tl Tr).length = nxv := by
  simp [init_field]

/-- Left boundary of the initialized Field State (needs at least two slots so
that the later write at `nxv - 1` does not clobber slot 0). -/
theorem init_field_left (nxv : ℕ) (Ti Tl Tr : ℚ) (h2 : 2 ≤ nxv) :
    (init_field nxv Ti Tl Tr)[0]? = some Tl := by
  unfold init_field
  rw [List.getElem?_set_ne (by omega : nxv - 1 ≠ 0),
    List.getElem?_set_self (by simp; omega)]

/-- Right boundary of the initialized Field State. -/
theorem init_field_right (nxv : ℕ) (Ti Tl Tr : ℚ) (h1 : 1 ≤ nxv) :
    (init_field nxv Ti Tl Tr)[nxv - 1]? = some Tr := by
  unfold init_field
  rw [List.getElem?_set_self (by simp; omega)]

/-- Every sample of the initialized Field State is one of the three
configured temperatures. -/
theorem init_field_mem (nxv : ℕ) (Ti Tl Tr : ℚ) :
    ∀ x ∈ init_field nxv Ti Tl Tr, x = Ti ∨ x = Tl ∨ x = Tr := by
  intro x hx
  rcases List.mem_or_eq_of_mem_set hx with hx | rfl
  · rcases List.mem_or_eq_of_mem_set hx with hx | rfl
    · exact Or.inl (List.eq_of_mem_replicate hx)
    · exact Or.inr (Or.inl rfl)
  · exact Or.inr (Or.inr rfl)

/-- Interval preservation by the interior loop: at ratio `0 ≤ r` with
`2 * r ≤ 1` each write is a convex combination of three samples of the
snapshot, so a loop over a snapshot and accumulator with all samples in
`[m, M]` keeps every sample in `[m, M]`. -/
theorem update_loop_bounds (T : List ℚ) (r : ℚ) (m M : ℚ)
    (hr : 0 ≤ r) (hr2 : 2 * r ≤ 1)
    (hT : ∀ x ∈ T, m ≤ x ∧ x ≤ M) (l : List ℕ) :
    ∀ acc : List ℚ, (∀ x ∈ acc, m ≤ x ∧ x ≤ M) →
    ∀ res, update_loop T r l acc = some res → ∀ x ∈ res, m ≤ x ∧ x ≤ M := by
  induction l with
  | nil =>
    intro acc hacc res hres x hx
    rw [update_loop] at hres
    cases hres
    exact hacc x hx
  | cons i rest ih =>
    intro acc hacc res hres
    rw [update_loop] at hres
    cases hp : T[i+1]? with
    | none => rw [hp] at hres; exact absurd hres (by simp)
    | some tp =>
      cases hc : T[i]? with
      | none => rw [hp, hc] at hres; exact absurd hres (by simp)
      | some tc =>
        cases hm : T[i-1]? with
        | none => rw [hp, hc, hm] at hres; exact absurd hres (by simp)
        | some tm =>
          rw [hp, hc, hm] at hres
          have hbp := hT tp (List.getElem?_mem hp)
          have hbc := hT tc (List.getElem?_mem hc)
          have hbm := hT tm (List.getElem?_mem hm)
          refine ih _ ?_ res hres
          intro x hx
          rcases List.mem_or_eq_of_mem_set hx with hx | rfl
          · exact hacc x hx
          · constructor
            · nlinarith [mul_nonneg hr (sub_nonneg.mpr hbp.1),
                mul_nonneg hr (sub_nonneg.mpr hbm.1),
                mul_nonneg (by linarith : (0:ℚ) ≤ 1 - 2 * r)
                  (sub_nonneg.mpr hbc.1)]
            · nlinarith [mul_nonneg hr (sub_nonneg.mpr hbp.2),
                mul_nonneg hr (sub_nonneg.mpr hbm.2),
                mul_nonneg (by linarith : (0:ℚ) ≤ 1 - 2 * r)
                  (sub_nonneg.mpr hbc.2)]

/-- Claim C1 (amended): for every Field State `T` of length 20 (the module
constant `nx`) and parameters `(alpha, dx, dt)`, `update_temperature` returns
a new Field State of length 20 with both boundary samples passed through
unchanged and every interior index `i` in `[1, 18]` updated to
`T[i] + (alpha * dt / dx^2) * (T[i+1] - 2*T[i] + T[i-1])`, computed entirely
from the prior state.  The original claim, for every length `N ≥ 3`, fails on
the code because the loop bound is the module constant `nx`, not the
argument's length. -/
theorem C1_stepper_contract_at_nx (T : List ℚ) (alpha dx dt : ℚ)
    (hlen : T.length = 20) :
    ∃ T2, update_temperature nx T alpha dx dt = some T2 ∧ T2.length = 20 ∧
      T2[0]? = T[0]? ∧ T2[19]? = T[19]? ∧
      ∀ i tm tc tp, 1 ≤ i → i ≤ 18 →
        T[i-1]? = some tm → T[i]? = some tc → T[i+1]? = some tp →
        T2[i]? = some (tc + alpha * dt / dx ^ 2 * (tp - 2 * tc + tm)) := by
  obtain ⟨res, hres, hrlen, hout, hin⟩ := update_temperature_ok nx T alpha dx dt hlen
  refine ⟨res, hres, hrlen, hout 0 (by decide), hout 19 (by decide), ?_⟩
  intro i tm tc tp h1 h2 hm hc hp
  have hi1 : i + 1 < nx := (by omega : i + 1 < 20)
  rw [hin i h1 hi1]
  simp [ftcs_val, hm, hc, hp]

/-- Witness for C1: the amended contract applied to the concrete constant
Field State of 20 samples. -/
theorem C1_stepper_contract_at_nx_witness :
    ∃ T2, update_temperature nx (List.replicate 20 (25 : ℚ)) 1 1 1 = some T2 ∧
      T2.length = 20 ∧
      T2[0]? = (List.replicate 20 (25 : ℚ))[0]? ∧
      T2[19]? = (List.replicate 20 (25 : ℚ))[19]? ∧
      ∀ i tm tc tp, 1 ≤ i → i ≤ 18 →
        (List.replicate 20 (25 : ℚ))[i-1]? = some tm →
        (List.replicate 20 (25 : ℚ))[i]? = some tc →
        (List.replicate 20 (25 : ℚ))[i+1]? = some tp →
        T2[i]? = some (tc + 1 * 1 / 1 ^ 2 * (tp - 2 * tc + tm)) :=
  C1_stepper_contract_at_nx (List.replicate 20 (25 : ℚ)) 1 1 1 (by decide)

/-- Counterexample to claim C1 as stated: a Field State of length `N = 5`
(so `N ≥ 3`) on which `update_temperature` raises an IndexError (modelled as
`none`) instead of returning the updated state, because the interior loop
runs over `[1, 18]` regardless of the argument's length. -/
theorem C1_counterexample_length5 :
    update_temperature nx [100, 25, 25, 25, 50] (1/10000) (1/2) (1/100) = none := by
  decide

/-- Claim C5 (amended): applying the stepper to `T = [100, 25, 50]` with
`dx = 1/2`, `alpha = 1/10000`, `dt = 1/100` fails with an out-of-range read
under the code's loop bound `nx = 20`; with the loop bound equal to the
state's length 3, the single interior update yields exactly
`T_new = [100, 25.0004, 50]` as the spec computes. -/
theorem C5_single_step_amended :
    update_temperature 3 [100, 25, 50] (1/10000) (1/2) (1/100) =
      some [100, 250004/10000, 50] ∧
    update_temperature nx [100, 25, 50] (1/10000) (1/2) (1/100) = none := by
  constructor
  · norm_num [update_temperature, update_loop, List.range']
  · decide

/-- Counterexample to claim C5 as stated: at the claim's exact input the code
raises an IndexError (modelled as `none`) rather than returning
`[100, 25.0004, 50]`, because the interior loop runs to index 18. -/
theorem C5_counterexample_crash :
    update_temperature nx [100, 25, 50] (1/10000) (1/2) (1/100) = none := by
  decide

/-- Counterexample to claim C6 as stated: for `N = 2 < 3` no error is
signaled; Field-State initialization succeeds and produces `[T_left, T_right]`. -/
theorem C6_counterexample_N2 :
    init_T 2 25 100 50 = some [100, 50] := by
  decide

/-- Claim C6 (amended): the code performs no configuration validation and
defines no InvalidConfiguration.  For `N = 2 < 3` a Field State is produced
and the whole simulation runs without error for arbitrary (including
non-positive) `alpha`, `dx` and `dt`; for `N = 0` the spatial step computes
to the negative value `-1` without rejection; the only construction-time
failures are the division by zero computing `dx` when `N = 1` and the
out-of-range boundary write when `N = 0`. -/
theorem C6_no_validation_amended :
    (∀ (Ti Tl Tr alpha dx dt : ℚ) (nt : ℕ),
      init_T 2 Ti Tl Tr = some (init_field 2 Ti Tl Tr) ∧
      ∃ h, T_history 2 (init_field 2 Ti Tl Tr) alpha dx dt nt = some h) ∧
    compute_dx 1 1 = none ∧ compute_dx 1 0 = some (-1) ∧
    init_T 0 25 100 50 = none := by
  refine ⟨?_, by decide, by norm_num [compute_dx], by decide⟩
  intro Ti Tl Tr alpha dx dt nt
  refine ⟨rfl, ?_⟩
  obtain ⟨h, hh, -, -⟩ :=
    history_ok 2 alpha dx dt nt (init_field 2 Ti Tl Tr) (init_field_length 2 Ti Tl Tr)
  exact ⟨h, hh⟩

/-- Claim C9: `update_temperature` iterates interior indices using the module
constant `nx = 20` rather than the length of its argument: every input of
length `3 ≤ L < 20` makes it read out of range and fail; for inputs of length
`L > 20` the interior points at indices `19 .. L-2` are returned unchanged
instead of updated; and for `L = 20` it computes the documented update at
every interior point. -/
theorem C9_nx_mismatch :
    nx = 20 ∧
    (∀ (T : List ℚ) (alpha dx dt : ℚ), 3 ≤ T.length → T.length < 20 →
      update_temperature nx T alpha dx dt = none) ∧
    (∀ (T : List ℚ) (alpha dx dt : ℚ), 20 < T.length →
      ∃ T2, update_temperature nx T alpha dx dt = some T2 ∧
        ∀ j, 19 ≤ j → j ≤ T.length - 2 → T2[j]? = T[j]?) ∧
    (∀ (T : List ℚ) (alpha dx dt : ℚ), T.length = 20 →
      ∃ T2, update_temperature nx T alpha dx dt = some T2 ∧
        ∀ j, 1 ≤ j → j ≤ 18 →
          T2[j]? = some (ftcs_val T (alpha * dt / dx ^ 2) j)) := by
  refine ⟨rfl, ?_, ?_, ?_⟩
  · intro T alpha dx dt h3 h20
    apply update_loop_fail
    refine ⟨T.length - 1, (mem_interior_iff nx (T.length - 1)).2 ?_, by omega⟩
    exact (by omega : 1 ≤ T.length - 1 ∧ T.length - 1 + 1 < 20)
  · intro T alpha dx dt hL
    obtain ⟨res, hres, -, hout, -⟩ :=
      update_loop_ok T (alpha * dt / dx ^ 2) (List.range' 1 (nx - 2)) T
        (fun i hi => by
          have h2 : 1 ≤ i ∧ i + 1 < 20 := (mem_interior_iff nx i).1 hi
          omega)
    refine ⟨res, hres, ?_⟩
    intro j hj _
    exact hout j (fun hmem => by
      have h2 : 1 ≤ j ∧ j + 1 < 20 := (mem_interior_iff nx j).1 hmem
      omega)
  · intro T alpha dx dt hL
    obtain ⟨res, hres, -, -, hin⟩ := update_temperature_ok nx T alpha dx dt hL
    exact ⟨res, hres, fun j h1 h2 => hin j h1 (by omega : j + 1 < 20)⟩

/-- Witness for C9: the failing branch at the concrete length-3 state and the
pass-through branch at the concrete length-21 state. -/
theorem C9_nx_mismatch_witness :
    update_temperature nx [100, 25, 50] 1 1 1 = none ∧
    ∃ T2, update_temperature nx (List.replicate 21 (25 : ℚ)) 1 1 1 = some T2 ∧
      ∀ j, 19 ≤ j → j ≤ (List.replicate 21 (25 : ℚ)).length - 2 →
        T2[j]? = (List.replicate 21 (25 : ℚ))[j]? :=
  ⟨C9_nx_mismatch.2.1 [100, 25, 50] 1 1 1 (by decide) (by decide),
   C9_nx_mismatch.2.2.1 (List.replicate 21 (25 : ℚ)) 1 1 1 (by decide)⟩

/-- Claim C10: every affine Field State is a fixed point of the stepper: for
all rationals `a`, `b` and the state `T` with `T[i] = a + b * i` of length
equal to the loop bound (in the source both are the module constant `nx`),
the centered second difference vanishes at every interior point and
`update_temperature` returns its input unchanged. -/
theorem C10_affine_fixed_point (a b alpha dx dt : ℚ) (n : ℕ) :
    update_temperature n (affine_state a b n) alpha dx dt =
      some (affine_state a b n) := by
  have hlen : (affine_state a b n).length = n := by simp [affine_state]
  obtain ⟨res, hres, hrlen, hout, hin⟩ :=
    update_temperature_ok n (affine_state a b n) alpha dx dt hlen
  have hval : ∀ m : ℕ, m < n →
      (affine_state a b n)[m]? = some (a + b * (m : ℚ)) := by
    intro m hm
    simp [affine_state, List.getElem?_range hm]
  suffices hres2 : res = affine_state a b n by
    rw [hres, hres2]
  apply List.ext_getElem?
  intro j
  by_cases hj : 1 ≤ j ∧ j + 1 < n
  · rw [hin j hj.1 hj.2, hval j (by omega)]
    congr 1
    unfold ftcs_val
    rw [hval j (by omega), hval (j+1) hj.2, hval (j-1) (by omega)]
    simp only [Option.getD_some]
    have hcast : ((j - 1 : ℕ) : ℚ) = (j : ℚ) - 1 := by
      rw [Nat.cast_sub hj.1, Nat.cast_one]
    rw [hcast]
    push_cast
    ring
  · rw [hout j hj]

/-- Claim C2: for every valid configuration (`N ≥ 3`, arbitrary temperatures
and parameters, the loop bound being the same `N` that sizes the state, as in
the source where both are the module global `nx`) and every recorded step
`k < nt`, the recorded state satisfies `History[k][0] = T_left` and
`History[k][N-1] = T_right` exactly. -/
theorem C2_boundary_invariance (N : ℕ) (Ti Tl Tr alpha dx dt : ℚ) (nt : ℕ)
    (hN : 3 ≤ N) :
    ∃ h, T_history N (init_field N Ti Tl Tr) alpha dx dt nt = some h ∧
      ∀ k, k < nt → ∃ s, h[k]? = some s ∧ s[0]? = some Tl ∧ s[N-1]? = some Tr := by
  have hpres : ∀ T res, T.length = N →
      (T[0]? = some Tl ∧ T[N-1]? = some Tr) →
      update_temperature N T alpha dx dt = some res →
      res[0]? = some Tl ∧ res[N-1]? = some Tr := by
    intro T res hlen hQ hup
    obtain ⟨res2, hres2, -, hout, -⟩ := update_temperature_ok N T alpha dx dt hlen
    have he : res2 = res := by
      rw [hres2] at hup
      exact Option.some.inj hup
    subst he
    exact ⟨(hout 0 (by omega)).trans hQ.1, (hout (N-1) (by omega)).trans hQ.2⟩
  obtain ⟨h, hh, hlen, hmem⟩ :=
    history_inv N alpha dx dt (fun s => s[0]? = some Tl ∧ s[N-1]? = some Tr) hpres
      nt (init_field N Ti Tl Tr) (init_field_length N Ti Tl Tr)
      ⟨init_field_left N Ti Tl Tr (by omega), init_field_right N Ti Tl Tr (by omega)⟩
  refine ⟨h, hh, ?_⟩
  intro k hk
  have hk2 : k < h.length := by omega
  refine ⟨h[k], List.getElem?_eq_getElem hk2, ?_⟩
  exact (hmem h[k] (List.getElem_mem hk2)).2

/-- Witness for C2: the concrete configuration `N = 3`, `T_left = 100`,
`T_right = 50`, `T_initial = 25`, two steps. -/
theorem C2_boundary_invariance_witness :
    ∃ h, T_history 3 (init_field 3 25 100 50) (1/10000) (1/2) (1/100) 2 = some h ∧
      ∀ k, k < 2 → ∃ s, h[k]? = some s ∧ s[0]? = some 100 ∧ s[3-1]? = some 50 :=
  C2_boundary_invariance 3 25 100 50 (1/10000) (1/2) (1/100) 2 (by decide)

/-- Claim C3: whenever a run completes (which it always does when the loop
bound matches the initial state's length), the History it produces has
element `k` (0-indexed) equal to the stepper applied `k+1` times to the
initial state; and `nt = 0` yields an empty History for every input. -/
theorem C3_history_iterates :
    (∀ (nxv : ℕ) (T0 : List ℚ) (alpha dx dt : ℚ) (nt : ℕ), T0.length = nxv →
      ∃ h, T_history nxv T0 alpha dx dt nt = some h ∧ h.length = nt ∧
        ∀ k, k < nt → h[k]? = stepper_iter nxv alpha dx dt T0 (k + 1)) ∧
    (∀ (nxv : ℕ) (T0 : List ℚ) (alpha dx dt : ℚ),
      T_history nxv T0 alpha dx dt 0 = some []) := by
  constructor
  · intro nxv T0 alpha dx dt nt hlen
    obtain ⟨h, hh, hlen2, -⟩ := history_ok nxv alpha dx dt nt T0 hlen
    exact ⟨h, hh, hlen2, history_get nxv alpha dx dt nt T0 h hh⟩
  · intro nxv T0 alpha dx dt
    rfl

/-- Witness for C3: a concrete two-step run from the length-3 state. -/
theorem C3_history_iterates_witness :
    ∃ h, T_history 3 [100, 25, 50] 1 1 1 2 = some h ∧ h.length = 2 ∧
      ∀ k, k < 2 → h[k]? = stepper_iter 3 1 1 1 [100, 25, 50] (k + 1) :=
  C3_history_iterates.1 3 [100, 25, 50] 1 1 1 2 (by decide)

/-- Claim C4: under the stability precondition `alpha * dt / dx^2 ≤ 1/2`
(with `alpha, dt, dx > 0`), every interior value of every recorded state of a
valid configuration (`N ≥ 3`) lies within
`[min(T_left, T_right, T_initial), max(T_left, T_right, T_initial)]`:
the discrete maximum principle holds at every step. -/
theorem C4_discrete_max_principle (N : ℕ) (Ti Tl Tr alpha dx dt : ℚ) (nt : ℕ)
    (hN : 3 ≤ N) (halpha : 0 < alpha) (hdx : 0 < dx) (hdt : 0 < dt)
    (hstab : alpha * dt / dx ^ 2 ≤ 1 / 2) :
    ∃ h, T_history N (init_field N Ti Tl Tr) alpha dx dt nt = some h ∧
      ∀ s ∈ h, ∀ i x, 1 ≤ i → i ≤ N - 2 → s[i]? = some x →
        min Tl (min Tr Ti) ≤ x ∧ x ≤ max Tl (max Tr Ti) := by
  have hr : 0 ≤ alpha * dt / dx ^ 2 := by positivity
  have hr2 : 2 * (alpha * dt / dx ^ 2) ≤ 1 := by linarith
  have hpres : ∀ T res, T.length = N →
      (∀ x ∈ T, min Tl (min Tr Ti) ≤ x ∧ x ≤ max Tl (max Tr Ti)) →
      update_temperature N T alpha dx dt = some res →
      ∀ x ∈ res, min Tl (min Tr Ti) ≤ x ∧ x ≤ max Tl (max Tr Ti) := by
    intro T res _ hQ hup
    exact update_loop_bounds T (alpha * dt / dx ^ 2) _ _ hr hr2 hQ
      (List.range' 1 (N - 2)) T hQ res hup
  have hinit : ∀ x ∈ init_field N Ti Tl Tr,
      min Tl (min Tr Ti) ≤ x ∧ x ≤ max Tl (max Tr Ti) := by
    intro x hx
    rcases init_field_mem N Ti Tl Tr x hx with rfl | rfl | rfl <;>
      constructor <;> simp [min_le_iff, le_max_iff, le_refl]
  obtain ⟨h, hh, -, hmem⟩ :=
    history_inv N alpha dx dt _ hpres nt (init_field N Ti Tl Tr)
      (init_field_length N Ti Tl Tr) hinit
  refine ⟨h, hh, ?_⟩
  intro s hs i x _ _ hx
  exact (hmem s hs).2 x (List.getElem?_mem hx)

/-- Witness for C4: the concrete stable configuration `N = 3`, `alpha = 1e-4`,
`dx = 1/2`, `dt = 1/100` (so `alpha*dt/dx^2 = 1/250000 ≤ 1/2`), two steps. -/
theorem C4_discrete_max_principle_witness :
    ∃ h, T_history 3 (init_field 3 25 100 50) (1/10000) (1/2) (1/100) 2 = some h ∧
      ∀ s ∈ h, ∀ i x, 1 ≤ i → i ≤ 3 - 2 → s[i]? = some x →
        min 100 (min 50 25) ≤ x ∧ x ≤ max 100 (max 50 25) :=
  C4_discrete_max_principle 3 25 100 50 (1/10000) (1/2) (1/100) 2
    (by decide) (by norm_num) (by norm_num) (by norm_num) (by norm_num)

/-- Claim C7: for every valid configuration (`N ≥ 3`), the run completes with
`len(History) = nt` and every element of the History of length exactly `N`:
the Field State is never resized. -/
theorem C7_length_invariants (N : ℕ) (Ti Tl Tr alpha dx dt : ℚ) (nt : ℕ)
    (hN : 3 ≤ N) :
    ∃ h, T_history N (init_field N Ti Tl Tr) alpha dx dt nt = some h ∧
      h.length = nt ∧ ∀ s ∈ h, s.length = N :=
  history_ok N alpha dx dt nt (init_field N Ti Tl Tr) (init_field_length N Ti Tl Tr)

/-- Witness for C7: the concrete configuration `N = 3`, five steps. -/
theorem C7_length_invariants_witness :
    ∃ h, T_history 3 (init_field 3 25 100 50) 1 1 1 5 = some h ∧
      h.length = 5 ∧ ∀ s ∈ h, s.length = 3 :=
  C7_length_invariants 3 25 100 50 1 1 1 5 (by decide)

/-- Claim C8: the simulation is deterministic: two runs with identical
configuration (same `N`, `alpha`, `dx`, `dt`, `nt`, `T_left`, `T_right`,
`T_initial`) produce identical History sequences. -/
theorem C8_determinism (N1 N2 : ℕ)
    (Ti1 Ti2 Tl1 Tl2 Tr1 Tr2 alpha1 alpha2 dx1 dx2 dt1 dt2 : ℚ) (nt1 nt2 : ℕ)
    (hN : N1 = N2) (hTi : Ti1 = Ti2) (hTl : Tl1 = Tl2) (hTr : Tr1 = Tr2)
    (halpha : alpha1 = alpha2) (hdx : dx1 = dx2) (hdt : dt1 = dt2)
    (hnt : nt1 = nt2) :
    T_history N1 (init_field N1 Ti1 Tl1 Tr1) alpha1 dx1 dt1 nt1 =
      T_history N2 (init_field N2 Ti2 Tl2 Tr2) alpha2 dx2 dt2 nt2 := by
  subst hN hTi hTl hTr halpha hdx hdt hnt
  rfl

/-- Witness for C8: two syntactically separate runs of the same concrete
configuration. -/
theorem C8_determinism_witness :
    T_history 3 (init_field 3 25 100 50) 1 1 1 4 =
      T_history 3 (init_field 3 25 100 50) 1 1 1 4 :=
  C8_determinism 3 3 25 25 100 100 50 50 1 1 1 1 1 1 4 4
    rfl rfl rfl rfl rfl rfl rfl rfl

end HeatSim
